/-
Verification of the kanpai-panda-snapshotter core algorithms.

This file shallowly embeds the JavaScript source of the repository:
 * the multi-pass, multi-chain reconciliation engine `snapshotNFTs`
   (src/unnamed/part_000, also the `PandaSnapshotter` class in
   src/unnamed/part_002, and the single-chain variant in
   src/infinitysnapshotter.js),
 * the wallet summary `generateWalletSummary` (src/unnamed/part_000),
 * the Solana single-item owner fetcher `getNFTOwner` with its rate gate
   (`waitForSlot` / `releaseSlot`) and the CSV driver `processEarningsCSV`
   (src/solana_panda_snapshotter.js, also `SolanaPandaSnapshotter` in
   src/unnamed/part_002).

Network behaviour is abstracted into an oracle: each RPC lookup either
yields an owner address, yields null (the code catches per-token errors and
returns null), or - for whole-batch calls in recheck passes - throws, which
the code converts into a null result for the whole batch after its retry
loop.  All state updates are translated statement by statement from the
source.
-/
import Mathlib

namespace PandaSnap

/-- Owner addresses are JS strings. -/
abbrev Address := String

/-- `ethers.ZeroAddress`, the burned/unminted sentinel checked by the code. -/
def zeroAddress : Address := "0x0000000000000000000000000000000000000000"

/-- The test `result?.owner && result.owner !== ethers.ZeroAddress` on a
present owner string: JS truthiness rules out the empty string, then the
zero address is rejected. -/
def validOwnerB (a : Address) : Bool := a != "" && a != zeroAddress

/-- An ownership record as written into `finalSnapshot`
(src/unnamed/part_000 lines 211-215). -/
structure Record where
  owner : Address
  chain : String
  block : Nat
deriving Repr, DecidableEq

/-- One entry of the `chains` configuration object: a chain name and its
`snapshotBlock` (null until populated).  A chain whose `snapshotBlock` is
null is skipped entirely by every lookup (src/unnamed/part_000 line 193). -/
structure ChainCfg where
  name : String
  snapshotBlock : Option Nat
deriving Repr, DecidableEq

/-- Abstraction of the network: `fetch pass chain tokenId` is the outcome of
one `ownerOf` call inside `getTokenOwnerBatch` (`none` models the caught
per-token error / null owner), and `batchOk pass chain batch` tells whether
the whole-batch call in a recheck pass eventually succeeds within its
`attempts = pass` retry loop (src/unnamed/part_000 lines 264-277). -/
structure Oracle where
  fetch : Nat → String → Nat → Option Address
  batchOk : Nat → String → List Nat → Bool

/-- `getTokenOwnerBatch` (src/unnamed/part_000 lines 132-146): maps each
token id to `{tokenId, owner}` where owner is null on a caught error. -/
def getTokenOwnerBatch (o : Oracle) (pass : Nat) (chainName : String)
    (tokenIds : List Nat) : List (Nat × Option Address) :=
  tokenIds.map fun t => (t, o.fetch pass chainName t)

/-- The value of one resolved chain promise: `{chainName, results}` where
`results` is null when every retry attempt of the batch call threw. -/
structure ChainResult where
  chainName : String
  block : Nat
  results : Option (List (Nat × Option Address))
deriving Repr, DecidableEq

/-- One chain promise body (src/unnamed/part_000 lines 192-197 for the
initial sweep, 260-279 for recheck passes): null when the chain has no
snapshot block; otherwise the batch results, which in a recheck pass are
null if every attempt threw. -/
def chainBatchCall (o : Oracle) (pass : Nat) (c : ChainCfg)
    (batch : List Nat) : Option ChainResult :=
  match c.snapshotBlock with
  | none => none
  | some blk =>
      if pass == 0 || o.batchOk pass c.name batch then
        some ⟨c.name, blk, some (getTokenOwnerBatch o pass c.name batch)⟩
      else some ⟨c.name, blk, none⟩

/-- `results.find(r => r.tokenId === tokenId)`. -/
def rowFor (t : Nat) (results : List (Nat × Option Address)) :
    Option (Nat × Option Address) :=
  results.find? fun r => r.1 == t

/-- One iteration body of the `for (const chainResult of chainResults)` loop
(src/unnamed/part_000 lines 203-219 and 288-305): a null chain entry or null
batch results contribute nothing; otherwise the row for the token is looked
up and accepted only with a truthy, non-zero owner. -/
def takeFromChain (t : Nat) : Option ChainResult → Option Record
  | none => none
  | some cr =>
      match cr.results with
      | none => none
      | some results =>
          match rowFor t results with
          | some (_, some a) =>
              if validOwnerB a then some ⟨a, cr.chainName, cr.block⟩ else none
          | _ => none

/-- The loop over the joined chain results resolving one token: the first
chain (in configuration order) with an acceptable owner wins and the loop
breaks. -/
def findFirst (t : Nat) : List (Option ChainResult) → Option Record
  | [] => none
  | c :: rest =>
      match takeFromChain t c with
      | some rec => some rec
      | none => findFirst t rest

/-- What a single chain contributes for token `t` in one group: the record
`findFirst` would take from that chain, if any. -/
def chainResolves (o : Oracle) (pass : Nat) (c : ChainCfg) (batch : List Nat)
    (t : Nat) : Option Record :=
  takeFromChain t (chainBatchCall o pass c batch)

/-- Lookup in the `finalSnapshot` JS object (keyed by token id). -/
def snapLookup (t : Nat) : List (Nat × Record) → Option Record
  | [] => none
  | (k, v) :: rest => if k = t then some v else snapLookup t rest

/-- The JS assignment `finalSnapshot[tokenId] = {...}`: overwrite the entry
if the key is present, otherwise add it. -/
def objSet (m : List (Nat × Record)) (k : Nat) (v : Record) :
    List (Nat × Record) :=
  if (snapLookup k m).isSome then
    m.map fun p => if p.1 = k then (k, v) else p
  else m ++ [(k, v)]

/-- `tokensToRecheck.add(tokenId)`: JS `Set.add` is a no-op on members. -/
def setAdd (s : List Nat) (t : Nat) : List Nat :=
  if t ∈ s then s else s ++ [t]

/-- The mutable state of one `snapshotNFTs` run: the `finalSnapshot` object
and the `tokensToRecheck` set (kept as its insertion-ordered element list). -/
structure SnapState where
  finalSnapshot : List (Nat × Record)
  tokensToRecheck : List Nat
deriving Repr, DecidableEq

def initState : SnapState := ⟨[], []⟩

/-- Body of `for (const tokenId of batch)` in the initial sweep
(src/unnamed/part_000 lines 200-226): record the first chain with a valid
owner, otherwise add the token to the recheck set. -/
def step0 (chainResults : List (Option ChainResult)) (st : SnapState)
    (t : Nat) : SnapState :=
  match findFirst t chainResults with
  | some rec => ⟨objSet st.finalSnapshot t rec, st.tokensToRecheck⟩
  | none => ⟨st.finalSnapshot, setAdd st.tokensToRecheck t⟩

/-- One initial-sweep group: fan out over all chains, then resolve each
token of the batch against the joined chain results. -/
def processGroup0 (o : Oracle) (cs : List ChainCfg) (st : SnapState)
    (batch : List Nat) : SnapState :=
  batch.foldl (step0 (cs.map fun c => chainBatchCall o 0 c batch)) st

/-- Body of `for (const tokenId of batch)` in a recheck pass
(src/unnamed/part_000 lines 284-311): skip tokens no longer in the recheck
set; on a valid owner write the record and delete the token from the set. -/
def stepR (chainResults : List (Option ChainResult)) (st : SnapState)
    (t : Nat) : SnapState :=
  if t ∈ st.tokensToRecheck then
    match findFirst t chainResults with
    | some rec => ⟨objSet st.finalSnapshot t rec, st.tokensToRecheck.erase t⟩
    | none => st
  else st

/-- One recheck-pass group (src/unnamed/part_000 lines 252-312). -/
def processGroupR (o : Oracle) (cs : List ChainCfg) (pass : Nat)
    (st : SnapState) (batch : List Nat) : SnapState :=
  batch.foldl (stepR (cs.map fun c => chainBatchCall o pass c batch)) st

/-- `for (let i = 0; i < arr.length; i += size) chunks.push(arr.slice(i, i + size))`,
the group-building loop used both for the initial sweep (over the id range)
and for recheck passes (over the recheck array). -/
def chunkListAux (size : Nat) : Nat → List Nat → List (List Nat)
  | _, [] => []
  | 0, _ :: _ => []
  | fuel + 1, x :: xs =>
      (x :: xs).take size :: chunkListAux size fuel ((x :: xs).drop size)

def chunkList (size : Nat) (l : List Nat) : List (List Nat) :=
  if size = 0 then [] else chunkListAux size l.length l

/-- `Math.max(5, Math.floor(BATCH_SIZE / pass))`
(src/unnamed/part_000 line 246). -/
def recheckBatchSize (B pass : Nat) : Nat := max 5 (B / pass)

/-- The initial sweep (pass 0) of `snapshotNFTs`: groups of the configured
`BATCH_SIZE` over the dense id range `1..totalSupply`
(src/unnamed/part_000 lines 176-234). -/
def runPass0 (o : Oracle) (cs : List ChainCfg) (totalSupply B : Nat) :
    SnapState :=
  (chunkList B (List.range' 1 totalSupply)).foldl (processGroup0 o cs) initState

/-- One recheck pass (src/unnamed/part_000 lines 237-315): if the recheck
set is empty the pass is skipped, otherwise the current recheck array is
partitioned with the shrunken batch size and each group is processed. -/
def runRecheckPass (o : Oracle) (cs : List ChainCfg) (B pass : Nat)
    (st : SnapState) : SnapState :=
  if st.tokensToRecheck.isEmpty then st
  else (chunkList (recheckBatchSize B pass) st.tokensToRecheck).foldl
    (processGroupR o cs pass) st

/-- The run state after pass 0 and the first `n` recheck passes. -/
def runPrefix (o : Oracle) (cs : List ChainCfg) (totalSupply B : Nat) :
    Nat → SnapState
  | 0 => runPass0 o cs totalSupply B
  | n + 1 => runRecheckPass o cs B (n + 1) (runPrefix o cs totalSupply B n)

/-- The whole `snapshotNFTs` reconciliation loop: initial sweep then the
three recheck passes (src/unnamed/part_000 lines 164-316). -/
def snapshotNFTs (o : Oracle) (cs : List ChainCfg) (totalSupply B : Nat) :
    SnapState :=
  runPrefix o cs totalSupply B 3

/-- `walletCounts[owner] = (walletCounts[owner] || 0) + 1`. -/
def bumpWallet : List (Address × Nat) → Address → List (Address × Nat)
  | [], a => [(a, 1)]
  | (b, n) :: rest, a =>
      if b = a then (b, n + 1) :: rest else (b, n) :: bumpWallet rest a

/-- `generateWalletSummary` (src/unnamed/part_000 lines 153-162): count
tokens per owner over the values of the final snapshot. -/
def generateWalletSummary (foundTokens : List (Nat × Record)) :
    List (Address × Nat) :=
  foundTokens.foldl (fun acc p => bumpWallet acc p.2.owner) []

/-- Total of the per-wallet counts. -/
def sumCounts (l : List (Address × Nat)) : Nat := (l.map Prod.snd).sum

/-- One CSV output row of the EVM snapshotters
(src/unnamed/part_000 lines 337-344). -/
structure CsvRow where
  tokenId : Nat
  owner : Address
  chain : String
  blockNumber : Nat
deriving Repr, DecidableEq

/-- Stable insertion into a token-id-sorted row list. -/
def insertRow (r : CsvRow) : List CsvRow → List CsvRow
  | [] => [r]
  | x :: xs =>
      if r.tokenId ≤ x.tokenId then r :: x :: xs else x :: insertRow r xs

/-- `csvData.sort((a, b) => parseInt(a.TokenId) - parseInt(b.TokenId))`:
a stable sort by ascending numeric token id. -/
def sortRows : List CsvRow → List CsvRow
  | [] => []
  | x :: xs => insertRow x (sortRows xs)

/-- The CSV rows written by the EVM snapshotters: one row per entry of the
final snapshot map - and only those - sorted by token id
(src/unnamed/part_000 lines 333-347, src/infinitysnapshotter.js 203-217). -/
def evmCsvRows (finalSnapshot : List (Nat × Record)) : List CsvRow :=
  sortRows (finalSnapshot.map fun p => ⟨p.1, p.2.owner, p.2.chain, p.2.block⟩)

/-! ### The Solana single-item owner fetcher -/

/-- The observable outcome of one attempt iteration of `getNFTOwner`
(src/solana_panda_snapshotter.js lines 53-156).  The `first...` outcomes
abort the attempt after the `getTokenLargestAccounts` round trip (a thrown
transport error, an HTTP 429 status, a missing result body, or no account
with a positive amount); the `second...` outcomes abort after the
`getAccountInfo` round trip; `success` returns the parsed owner. -/
inductive AttemptOutcome where
  | firstThrow429
  | firstThrowOther
  | firstStatus429
  | firstNoResult
  | noActiveAccounts
  | secondThrow429
  | secondThrowOther
  | secondStatus429
  | secondNoResult
  | badFormat
  | success (owner : Address)
deriving Repr, DecidableEq

/-- Whether an attempt outcome is the success case. -/
def AttemptOutcome.isSuccess : AttemptOutcome → Bool
  | .success _ => true
  | _ => false

/-- Events on the rate gate and the wire: `acquire` is `waitForSlot`
completing (`activeRequests++`), `release` is `releaseSlot`
(`activeRequests--`), `http` is one `axios.post` round trip. -/
inductive GateEvent where
  | acquire
  | release
  | http
deriving Repr, DecidableEq

/-- The gate/wire trace of one attempt iteration, read off the source: every
attempt starts with `await this.waitForSlot()`; outcomes decided by the
first round trip release after one `http`, all others after two; every exit
path of the attempt - including the catch block - calls `releaseSlot`
exactly once. -/
def attemptTrace : AttemptOutcome → List GateEvent
  | .firstThrow429 => [.acquire, .http, .release]
  | .firstThrowOther => [.acquire, .http, .release]
  | .firstStatus429 => [.acquire, .http, .release]
  | .firstNoResult => [.acquire, .http, .release]
  | .noActiveAccounts => [.acquire, .http, .release]
  | .secondThrow429 => [.acquire, .http, .http, .release]
  | .secondThrowOther => [.acquire, .http, .http, .release]
  | .secondStatus429 => [.acquire, .http, .http, .release]
  | .secondNoResult => [.acquire, .http, .http, .release]
  | .badFormat => [.acquire, .http, .http, .release]
  | .success _ => [.acquire, .http, .http, .release]

/-- The owner returned by a successful attempt. -/
def successOwner : AttemptOutcome → Option Address
  | .success a => some a
  | _ => none

/-- The retry loop `for (let attempt = 0; attempt < maxRetries; attempt++)`:
the attempt with index `k` runs next, `fuel` attempts remain.  A successful
attempt returns its owner immediately; every other outcome falls through to
the next attempt (in the last attempt the throw cases simply leave the
loop), and after the loop the function returns null.  Returns the result
together with the gate/wire trace. -/
def runAttempts (att : Nat → AttemptOutcome) :
    Nat → Nat → Option Address × List GateEvent
  | 0, _ => (none, [])
  | fuel + 1, k =>
      if (att k).isSuccess then (successOwner (att k), attemptTrace (att k))
      else ((runAttempts att fuel (k + 1)).1,
        attemptTrace (att k) ++ (runAttempts att fuel (k + 1)).2)

/-- The guard `!mintAddress || mintAddress.trim() === ''`: the string is
falsy (empty) or trims to the empty string, i.e. every character is
whitespace. -/
def isBlank (s : String) : Bool :=
  s == "" || s.data.all fun ch => ch.isWhitespace

/-- `getNFTOwner` (src/solana_panda_snapshotter.js lines 44-161): null for a
blank mint address, otherwise up to `maxRetries = 5` attempts, returning the
first successful owner or null.  The oracle `att` gives each attempt
iteration's outcome. -/
def getNFTOwner (att : Nat → AttemptOutcome) (mintAddress : String) :
    Option Address × List GateEvent :=
  if isBlank mintAddress then (none, [])
  else runAttempts att 5 0

/-- Fold the rate-gate counter `activeRequests` over a trace. -/
def runGate (n : Int) (tr : List GateEvent) : Int :=
  tr.foldl
    (fun m e =>
      match e with
      | .acquire => m + 1
      | .release => m - 1
      | .http => m)
    n

/-! ### The Solana CSV driver -/

/-- One output row of `processEarningsCSV`: the mint id and the
`OwnerWallet` column added to it (null when unresolved). -/
structure SolOutRow where
  solanaTokenId : String
  ownerWallet : Option Address
deriving Repr, DecidableEq

/-- JS truthiness of `row.OwnerWallet` as used by
`validData.filter(row => row.OwnerWallet)`. -/
def ownerTruthy : Option Address → Bool
  | none => false
  | some a => a != ""

/-! ### Basic facts about the embedded primitives -/

theorem snapLookup_append (t : Nat) (m l : List (Nat × Record)) :
    snapLookup t (m ++ l) =
      match snapLookup t m with
      | some v => some v
      | none => snapLookup t l := by
  induction m with
  | nil => simp [snapLookup]
  | cons p rest ih =>
      obtain ⟨k, v⟩ := p
      by_cases h : k = t <;> simp [snapLookup, h, ih]

theorem objSet_fresh (m : List (Nat × Record)) (k : Nat) (v : Record)
    (h : snapLookup k m = none) : objSet m k v = m ++ [(k, v)] := by
  simp [objSet, h]

theorem snapLookup_append_single (u t : Nat) (rec : Record)
    (m : List (Nat × Record)) :
    snapLookup u (m ++ [(t, rec)]) =
      match snapLookup u m with
      | some v => some v
      | none => if t = u then some rec else none := by
  rw [snapLookup_append]
  cases snapLookup u m <;> simp [snapLookup]

theorem snapLookup_isSome_of_mem {k : Nat} {rec : Record}
    {m : List (Nat × Record)} (h : (k, rec) ∈ m) :
    (snapLookup k m).isSome := by
  induction m with
  | nil => simp at h
  | cons p rest ih =>
      obtain ⟨k2, v2⟩ := p
      rcases List.mem_cons.mp h with h1 | h1
      · obtain ⟨rfl, rfl⟩ := Prod.mk.injEq .. ▸ h1
        simp [snapLookup]
      · by_cases hk : k2 = k <;> simp [snapLookup, hk, ih h1]

theorem takeFromChain_valid {t : Nat} {c : Option ChainResult} {rec : Record}
    (h : takeFromChain t c = some rec) : validOwnerB rec.owner = true := by
  cases c with
  | none => simp [takeFromChain] at h
  | some cr =>
      cases hres : cr.results with
      | none => simp [takeFromChain, hres] at h
      | some results =>
          cases hrow : rowFor t results with
          | none => simp [takeFromChain, hres, hrow] at h
          | some row =>
              obtain ⟨tid, ow⟩ := row
              cases ow with
              | none => simp [takeFromChain, hres, hrow] at h
              | some a =>
                  by_cases hv : validOwnerB a
                  · simp [takeFromChain, hres, hrow, hv] at h
                    rw [← h]
                    exact hv
                  · simp [takeFromChain, hres, hrow, hv] at h

theorem findFirst_valid {t : Nat} {l : List (Option ChainResult)}
    {rec : Record} (h : findFirst t l = some rec) :
    validOwnerB rec.owner = true := by
  induction l with
  | nil => simp [findFirst] at h
  | cons c rest ih =>
      cases hc : takeFromChain t c with
      | some rec2 =>
          rw [findFirst, hc] at h
          cases h
          exact takeFromChain_valid hc
      | none =>
          rw [findFirst, hc] at h
          exact ih h

theorem findFirst_map (t : Nat) (f : ChainCfg → Option ChainResult)
    (cs : List ChainCfg) :
    findFirst t (cs.map f) = cs.findSome? fun c => takeFromChain t (f c) := by
  induction cs with
  | nil => rfl
  | cons c rest ih =>
      rw [List.map_cons, findFirst, List.findSome?]
      cases takeFromChain t (f c) <;> simp [ih]

theorem rowFor_map (t : Nat) (f : Nat → Option Address) (batch : List Nat) :
    rowFor t (batch.map fun x => (x, f x)) =
      if t ∈ batch then some (t, f t) else none := by
  induction batch with
  | nil => simp [rowFor]
  | cons x xs ih =>
      by_cases hx : x = t
      · subst hx
        simp [rowFor, List.find?]
      · rw [rowFor, List.map_cons, List.find?] at *
        have : ((x, f x).1 == t) = false := by simp [hx]
        rw [this]
        rw [ih]
        by_cases ht : t ∈ xs <;> simp [ht, hx, Ne.symm hx]

/-- Unpacking a successful single-chain resolution in the initial sweep. -/
theorem chainResolves_inv {o : Oracle} {c : ChainCfg} {batch : List Nat}
    {t : Nat} {rec : Record} (hmem : t ∈ batch)
    (h : chainResolves o 0 c batch t = some rec) :
    ∃ blk a, c.snapshotBlock = some blk ∧ o.fetch 0 c.name t = some a
      ∧ validOwnerB a = true ∧ rec = ⟨a, c.name, blk⟩ := by
  cases hblk : c.snapshotBlock with
  | none => simp [chainResolves, chainBatchCall, hblk, takeFromChain] at h
  | some blk =>
      rw [chainResolves, chainBatchCall, hblk] at h
      simp only [beq_self_eq_true, Bool.true_or, if_true] at h
      rw [takeFromChain] at h
      simp only [getTokenOwnerBatch] at h
      rw [rowFor_map t (o.fetch 0 c.name) batch] at h
      rw [if_pos hmem] at h
      cases hf : o.fetch 0 c.name t with
      | none => rw [hf] at h; simp at h
      | some a =>
          rw [hf] at h
          by_cases hv : validOwnerB a
          · simp only [hv, if_true] at h
            cases h
            exact ⟨blk, a, rfl, rfl, hv, rfl⟩
          · simp [hv] at h

theorem findSome?_eq_of_prefix_none {f : ChainCfg → Option Record} :
    ∀ pre : List ChainCfg, (∀ c2 ∈ pre, f c2 = none) →
      ∀ (c : ChainCfg) (post : List ChainCfg) (rec : Record), f c = some rec →
        (pre ++ c :: post).findSome? f = some rec := by
  intro pre
  induction pre with
  | nil =>
      intro _ c post rec hc
      simp [List.findSome?, hc]
  | cons c2 rest ih =>
      intro hpre c post rec hc
      have h2 : f c2 = none := hpre c2 (by simp)
      rw [List.cons_append, List.findSome?, h2]
      exact ih (fun x hx => hpre x (by simp [hx])) c post rec hc

theorem chunkListAux_flatten (size : Nat) (hs : size ≠ 0) :
    ∀ (fuel : Nat) (l : List Nat), l.length ≤ fuel →
      (chunkListAux size fuel l).flatten = l := by
  intro fuel
  induction fuel with
  | zero =>
      intro l hl
      have hnil : l = [] := List.length_eq_zero.mp (Nat.le_zero.mp hl)
      subst hnil
      rfl
  | succ fuel ih =>
      intro l hl
      cases l with
      | nil => rfl
      | cons x xs =>
          rw [chunkListAux, List.flatten_cons,
            ih ((x :: xs).drop size) (by
              rw [List.length_drop]
              simp only [List.length_cons] at hl ⊢
              omega)]
          exact List.take_append_drop size (x :: xs)

theorem chunkList_join (size : Nat) (hs : size ≠ 0) (l : List Nat) :
    (chunkList size l).flatten = l := by
  rw [chunkList, if_neg hs]
  exact chunkListAux_flatten size hs l.length l le_rfl

theorem chunkListAux_sizes (size : Nat) (hs : size ≠ 0) :
    ∀ (fuel : Nat) (l : List Nat), l.length ≤ fuel →
      ∀ g ∈ chunkListAux size fuel l, g ≠ [] ∧ g.length ≤ size := by
  intro fuel
  induction fuel with
  | zero =>
      intro l hl g hg
      have hnil : l = [] := List.length_eq_zero.mp (Nat.le_zero.mp hl)
      subst hnil
      simp [chunkListAux] at hg
  | succ fuel ih =>
      intro l hl g hg
      cases l with
      | nil => simp [chunkListAux] at hg
      | cons x xs =>
          rw [chunkListAux] at hg
          rcases List.mem_cons.mp hg with hg1 | hg1
          · subst hg1
            constructor
            · intro hemp
              rcases List.take_eq_nil_iff.mp hemp with h0 | h0
              · exact hs h0
              · exact List.noConfusion h0
            · simpa using Nat.min_le_left size (x :: xs).length
          · exact ih ((x :: xs).drop size) (by
              rw [List.length_drop]
              simp only [List.length_cons] at hl ⊢
              omega) g hg1

theorem chunkList_sizes (size : Nat) (hs : size ≠ 0) (l : List Nat) :
    ∀ g ∈ chunkList size l, g ≠ [] ∧ g.length ≤ size := by
  rw [chunkList, if_neg hs]
  exact chunkListAux_sizes size hs l.length l le_rfl

theorem chunkListAux_dropLast (size : Nat) (hs : size ≠ 0) :
    ∀ (fuel : Nat) (l : List Nat), l.length ≤ fuel →
      ∀ g ∈ (chunkListAux size fuel l).dropLast, g.length = size := by
  intro fuel
  induction fuel with
  | zero =>
      intro l hl g hg
      have hnil : l = [] := List.length_eq_zero.mp (Nat.le_zero.mp hl)
      subst hnil
      simp [chunkListAux] at hg
  | succ fuel ih =>
      intro l hl g hg
      cases l with
      | nil => simp [chunkListAux] at hg
      | cons x xs =>
          rw [chunkListAux] at hg
          have hlen : ((x :: xs).drop size).length ≤ fuel := by
            rw [List.length_drop]
            simp only [List.length_cons] at hl ⊢
            omega
          cases hrest : chunkListAux size fuel ((x :: xs).drop size) with
          | nil =>
              rw [hrest] at hg
              simp at hg
          | cons g2 gs =>
              rw [hrest, List.dropLast_cons₂] at hg
              rcases List.mem_cons.mp hg with hg1 | hg1
              · subst hg1
                have hne : (x :: xs).drop size ≠ [] := by
                  intro h0
                  rw [h0] at hrest
                  have haux : chunkListAux size fuel ([] : List Nat) = [] := by
                    cases fuel <;> rfl
                  rw [haux] at hrest
                  exact List.noConfusion hrest
                have hlt : size < (x :: xs).length := by
                  by_contra hge
                  push_neg at hge
                  exact hne (List.drop_eq_nil_of_le hge)
                simp only [List.length_take]
                omega
              · have hrec := ih ((x :: xs).drop size) hlen
                rw [hrest] at hrec
                exact hrec g hg1

theorem chunkList_dropLast (size : Nat) (hs : size ≠ 0) (l : List Nat) :
    ∀ g ∈ (chunkList size l).dropLast, g.length = size := by
  rw [chunkList, if_neg hs]
  exact chunkListAux_dropLast size hs l.length l le_rfl

/-! ### Run-state invariants -/

/-- Token `t` has not been seen yet: no snapshot entry, not marked for
recheck. -/
def Fresh (st : SnapState) (t : Nat) : Prop :=
  snapLookup t st.finalSnapshot = none ∧ t ∉ st.tokensToRecheck

/-- The run invariant: resolved tokens are never also queued for recheck,
every recorded owner is truthy and non-zero, and the recheck set has no
duplicates (it models a JS `Set`). -/
def Inv (st : SnapState) : Prop :=
  (∀ t, (snapLookup t st.finalSnapshot).isSome → t ∉ st.tokensToRecheck)
  ∧ (∀ t rec, snapLookup t st.finalSnapshot = some rec →
      validOwnerB rec.owner = true)
  ∧ st.tokensToRecheck.Nodup

theorem inv_init : Inv initState := by
  refine ⟨?_, ?_, ?_⟩
  · intro t h
    simp [initState, snapLookup] at h
  · intro t rec h
    simp [initState, snapLookup] at h
  · simp [initState]

/-- Processing one initial-sweep group over fixed joined chain results:
every fresh token of the batch ends up exactly as `findFirst` decides, and
the rest of the state is untouched. -/
theorem foldl_step0_spec (l : List (Option ChainResult)) :
    ∀ (batch : List Nat) (st : SnapState), Inv st → batch.Nodup →
      (∀ t ∈ batch, Fresh st t) →
      Inv (batch.foldl (step0 l) st)
      ∧ (∀ t ∈ batch,
          snapLookup t (batch.foldl (step0 l) st).finalSnapshot = findFirst t l
          ∧ ((t ∈ (batch.foldl (step0 l) st).tokensToRecheck) ↔
              findFirst t l = none))
      ∧ (∀ t, t ∉ batch →
          snapLookup t (batch.foldl (step0 l) st).finalSnapshot
            = snapLookup t st.finalSnapshot
          ∧ ((t ∈ (batch.foldl (step0 l) st).tokensToRecheck) ↔
              t ∈ st.tokensToRecheck)) := by
  intro batch
  induction batch with
  | nil =>
      intro st hInv _ _
      exact ⟨hInv, by simp, by intro t _; exact ⟨rfl, Iff.rfl⟩⟩
  | cons t rest ih =>
      intro st hInv hnd hfresh
      obtain ⟨hlook, hmem⟩ := hfresh t (List.mem_cons_self t rest)
      have htr : t ∉ rest := (List.nodup_cons.mp hnd).1
      have hndr : rest.Nodup := (List.nodup_cons.mp hnd).2
      rw [List.foldl_cons]
      cases hf : findFirst t l with
      | some rec =>
          have hstep : step0 l st t
              = ⟨st.finalSnapshot ++ [(t, rec)], st.tokensToRecheck⟩ := by
            simp only [step0, hf]
            rw [objSet_fresh st.finalSnapshot t rec hlook]
          rw [hstep]
          have hlook1 : ∀ u, u ≠ t →
              snapLookup u (st.finalSnapshot ++ [(t, rec)])
                = snapLookup u st.finalSnapshot := by
            intro u hu
            rw [snapLookup_append_single]
            cases snapLookup u st.finalSnapshot with
            | none => simp [Ne.symm hu]
            | some v => simp
          have hlookt : snapLookup t (st.finalSnapshot ++ [(t, rec)])
              = some rec := by
            rw [snapLookup_append_single, hlook]
            simp
          have hInv1 : Inv ⟨st.finalSnapshot ++ [(t, rec)], st.tokensToRecheck⟩ := by
            obtain ⟨hd, hv, hnds⟩ := hInv
            refine ⟨?_, ?_, hnds⟩
            · intro u hu
              by_cases hut : u = t
              · subst hut; exact hmem
              · rw [hlook1 u hut] at hu
                exact hd u hu
            · intro u rec2 hu
              by_cases hut : u = t
              · subst hut
                rw [hlookt] at hu
                cases hu
                exact findFirst_valid hf
              · rw [hlook1 u hut] at hu
                exact hv u rec2 hu
          have hfresh1 : ∀ u ∈ rest,
              Fresh ⟨st.finalSnapshot ++ [(t, rec)], st.tokensToRecheck⟩ u := by
            intro u hu
            have hut : u ≠ t := fun h => htr (h ▸ hu)
            obtain ⟨hl2, hm2⟩ := hfresh u (List.mem_cons_of_mem t hu)
            exact ⟨(hlook1 u hut).trans hl2, hm2⟩
          obtain ⟨ihInv, ihIn, ihOut⟩ := ih _ hInv1 hndr hfresh1
          refine ⟨ihInv, ?_, ?_⟩
          · intro u hu
            rcases List.mem_cons.mp hu with rfl | hu2
            · obtain ⟨e1, e2⟩ := ihOut u htr
              refine ⟨e1.trans (hlookt.trans hf.symm), ?_⟩
              rw [e2, hf]
              simp only [reduceCtorEq, iff_false]
              exact hmem
            · exact ihIn u hu2
          · intro u hu
            have hut : u ≠ t := fun h => hu (h ▸ List.mem_cons_self t rest)
            have hur : u ∉ rest := fun h => hu (List.mem_cons_of_mem t h)
            obtain ⟨e1, e2⟩ := ihOut u hur
            exact ⟨e1.trans (hlook1 u hut), e2⟩
      | none =>
          have hstep : step0 l st t
              = ⟨st.finalSnapshot, st.tokensToRecheck ++ [t]⟩ := by
            simp [step0, hf, setAdd, hmem]
          rw [hstep]
          have hmem1 : ∀ u, u ∈ st.tokensToRecheck ++ [t]
              ↔ u ∈ st.tokensToRecheck ∨ u = t := by
            intro u; simp
          have hInv1 : Inv ⟨st.finalSnapshot, st.tokensToRecheck ++ [t]⟩ := by
            obtain ⟨hd, hv, hnds⟩ := hInv
            refine ⟨?_, hv, ?_⟩
            · intro u hu hin
              rcases (hmem1 u).mp hin with h2 | h2
              · exact hd u hu h2
              · subst h2
                rw [hlook] at hu
                simp at hu
            · rw [List.nodup_append]
              exact ⟨hnds, List.nodup_singleton t,
                fun a ha hb => hmem ((List.mem_singleton.mp hb) ▸ ha)⟩
          have hfresh1 : ∀ u ∈ rest,
              Fresh ⟨st.finalSnapshot, st.tokensToRecheck ++ [t]⟩ u := by
            intro u hu
            have hut : u ≠ t := fun h => htr (h ▸ hu)
            obtain ⟨hl2, hm2⟩ := hfresh u (List.mem_cons_of_mem t hu)
            refine ⟨hl2, fun hin => ?_⟩
            rcases (hmem1 u).mp hin with h2 | h2
            · exact hm2 h2
            · exact hut h2
          obtain ⟨ihInv, ihIn, ihOut⟩ := ih _ hInv1 hndr hfresh1
          refine ⟨ihInv, ?_, ?_⟩
          · intro u hu
            rcases List.mem_cons.mp hu with rfl | hu2
            · obtain ⟨e1, e2⟩ := ihOut u htr
              refine ⟨e1.trans (hlook.trans hf.symm), ?_⟩
              rw [e2, hf]
              simp
            · exact ihIn u hu2
          · intro u hu
            have hut : u ≠ t := fun h => hu (h ▸ List.mem_cons_self t rest)
            have hur : u ∉ rest := fun h => hu (List.mem_cons_of_mem t h)
            obtain ⟨e1, e2⟩ := ihOut u hur
            refine ⟨e1, e2.trans ?_⟩
            rw [hmem1 u]
            simp [hut]

/-- Processing one recheck-pass group over fixed joined chain results:
tokens of the batch still queued for recheck get resolved exactly when
`findFirst` finds an owner (and are then removed from the recheck set),
everything else is untouched, and the recheck set only shrinks. -/
theorem foldl_stepR_spec (l : List (Option ChainResult)) :
    ∀ (batch : List Nat) (st : SnapState), Inv st → batch.Nodup →
      (∀ t ∈ batch, t ∈ st.tokensToRecheck) →
      Inv (batch.foldl (stepR l) st)
      ∧ (∀ t ∈ batch,
          (∀ rec, findFirst t l = some rec →
            snapLookup t (batch.foldl (stepR l) st).finalSnapshot = some rec
            ∧ t ∉ (batch.foldl (stepR l) st).tokensToRecheck)
          ∧ (findFirst t l = none →
            snapLookup t (batch.foldl (stepR l) st).finalSnapshot = none
            ∧ t ∈ (batch.foldl (stepR l) st).tokensToRecheck))
      ∧ (∀ t, t ∉ batch →
          snapLookup t (batch.foldl (stepR l) st).finalSnapshot
            = snapLookup t st.finalSnapshot
          ∧ ((t ∈ (batch.foldl (stepR l) st).tokensToRecheck) ↔
              t ∈ st.tokensToRecheck)) := by
  intro batch
  induction batch with
  | nil =>
      intro st hInv _ _
      exact ⟨hInv, by simp, by intro t _; exact ⟨rfl, Iff.rfl⟩⟩
  | cons t rest ih =>
      intro st hInv hnd hsub
      have htin : t ∈ st.tokensToRecheck := hsub t (List.mem_cons_self t rest)
      have hlook : snapLookup t st.finalSnapshot = none := by
        cases hcase : snapLookup t st.finalSnapshot with
        | none => rfl
        | some v =>
            exact absurd htin (hInv.1 t (by rw [hcase]; rfl))
      have htr : t ∉ rest := (List.nodup_cons.mp hnd).1
      have hndr : rest.Nodup := (List.nodup_cons.mp hnd).2
      rw [List.foldl_cons]
      cases hf : findFirst t l with
      | some rec =>
          have hstep : stepR l st t
              = ⟨st.finalSnapshot ++ [(t, rec)], st.tokensToRecheck.erase t⟩ := by
            simp only [stepR, htin, if_true, hf]
            rw [objSet_fresh st.finalSnapshot t rec hlook]
          rw [hstep]
          have hlook1 : ∀ u, u ≠ t →
              snapLookup u (st.finalSnapshot ++ [(t, rec)])
                = snapLookup u st.finalSnapshot := by
            intro u hu
            rw [snapLookup_append_single]
            cases snapLookup u st.finalSnapshot with
            | none => simp [Ne.symm hu]
            | some v => simp
          have hlookt : snapLookup t (st.finalSnapshot ++ [(t, rec)])
              = some rec := by
            rw [snapLookup_append_single, hlook]
            simp
          have htnotin : t ∉ st.tokensToRecheck.erase t :=
            hInv.2.2.not_mem_erase
          have hInv1 : Inv ⟨st.finalSnapshot ++ [(t, rec)],
              st.tokensToRecheck.erase t⟩ := by
            obtain ⟨hd, hv, hnds⟩ := hInv
            refine ⟨?_, ?_, hnds.erase t⟩
            · intro u hu hin
              by_cases hut : u = t
              · subst hut; exact htnotin hin
              · rw [hlook1 u hut] at hu
                exact hd u hu (List.mem_of_mem_erase hin)
            · intro u rec2 hu
              by_cases hut : u = t
              · subst hut
                rw [hlookt] at hu
                cases hu
                exact findFirst_valid hf
              · rw [hlook1 u hut] at hu
                exact hv u rec2 hu
          have hsub1 : ∀ u ∈ rest, u ∈ st.tokensToRecheck.erase t := by
            intro u hu
            have hut : u ≠ t := fun h => htr (h ▸ hu)
            exact (List.mem_erase_of_ne hut).mpr (hsub u (List.mem_cons_of_mem t hu))
          obtain ⟨ihInv, ihIn, ihOut⟩ := ih _ hInv1 hndr hsub1
          refine ⟨ihInv, ?_, ?_⟩
          · intro u hu
            rcases List.mem_cons.mp hu with rfl | hu2
            · obtain ⟨e1, e2⟩ := ihOut u htr
              constructor
              · intro rec2 hrec2
                rw [hf] at hrec2
                cases hrec2
                refine ⟨e1.trans hlookt, fun hin => ?_⟩
                exact htnotin (e2.mp hin)
              · intro h0
                rw [hf] at h0
                cases h0
            · exact ihIn u hu2
          · intro u hu
            have hut : u ≠ t := fun h => hu (h ▸ List.mem_cons_self t rest)
            have hur : u ∉ rest := fun h => hu (List.mem_cons_of_mem t h)
            obtain ⟨e1, e2⟩ := ihOut u hur
            refine ⟨e1.trans (hlook1 u hut), e2.trans ?_⟩
            exact List.mem_erase_of_ne hut
      | none =>
          have hstep : stepR l st t = st := by
            simp only [stepR, htin, if_true, hf]
          rw [hstep]
          obtain ⟨ihInv, ihIn, ihOut⟩ := ih st hInv hndr
            (fun u hu => hsub u (List.mem_cons_of_mem t hu))
          refine ⟨ihInv, ?_, ?_⟩
          · intro u hu
            rcases List.mem_cons.mp hu with rfl | hu2
            · obtain ⟨e1, e2⟩ := ihOut u htr
              constructor
              · intro rec2 hrec2
                rw [hf] at hrec2
                cases hrec2
              · intro _
                exact ⟨e1.trans hlook, e2.mpr htin⟩
            · exact ihIn u hu2
          · intro u hu
            have hur : u ∉ rest := fun h => hu (List.mem_cons_of_mem t h)
            exact ihOut u hur

/-- The recheck set never grows during recheck processing. -/
theorem foldl_stepR_sublist (l : List (Option ChainResult)) :
    ∀ (batch : List Nat) (st : SnapState),
      (batch.foldl (stepR l) st).tokensToRecheck.Sublist st.tokensToRecheck := by
  intro batch
  induction batch with
  | nil => intro st; exact List.Sublist.refl _
  | cons t rest ih =>
      intro st
      rw [List.foldl_cons]
      refine (ih (stepR l st t)).trans ?_
      rw [stepR]
      by_cases htin : t ∈ st.tokensToRecheck
      · rw [if_pos htin]
        cases findFirst t l with
        | some rec => exact List.erase_sublist t st.tokensToRecheck
        | none => exact List.Sublist.refl _
      · rw [if_neg htin]

/-- A whole initial sweep over disjoint fresh groups: every token of the
swept range is either resolved (and not queued) or queued for recheck (and
unresolved); tokens outside the range are untouched. -/
theorem foldl_group0_spec (o : Oracle) (cs : List ChainCfg) :
    ∀ (chunks : List (List Nat)) (st : SnapState), Inv st →
      chunks.flatten.Nodup → (∀ t ∈ chunks.flatten, Fresh st t) →
      Inv (chunks.foldl (processGroup0 o cs) st)
      ∧ (∀ t ∈ chunks.flatten,
          ((snapLookup t (chunks.foldl (processGroup0 o cs) st).finalSnapshot).isSome
            ∧ t ∉ (chunks.foldl (processGroup0 o cs) st).tokensToRecheck)
          ∨ (snapLookup t (chunks.foldl (processGroup0 o cs) st).finalSnapshot = none
            ∧ t ∈ (chunks.foldl (processGroup0 o cs) st).tokensToRecheck))
      ∧ (∀ t, t ∉ chunks.flatten →
          snapLookup t (chunks.foldl (processGroup0 o cs) st).finalSnapshot
            = snapLookup t st.finalSnapshot
          ∧ ((t ∈ (chunks.foldl (processGroup0 o cs) st).tokensToRecheck) ↔
              t ∈ st.tokensToRecheck)) := by
  intro chunks
  induction chunks with
  | nil =>
      intro st hInv _ _
      exact ⟨hInv, by simp, fun t _ => ⟨rfl, Iff.rfl⟩⟩
  | cons c chunks ih =>
      intro st hInv hnd hfresh
      rw [List.flatten_cons] at hnd hfresh
      obtain ⟨hndc, hndrest, hdisj⟩ := List.nodup_append.mp hnd
      have hfc : ∀ t ∈ c, Fresh st t :=
        fun t ht => hfresh t (List.mem_append_left _ ht)
      have hpg : processGroup0 o cs st c
          = c.foldl (step0 (cs.map fun cc => chainBatchCall o 0 cc c)) st := rfl
      obtain ⟨g1, g2, g3⟩ := foldl_step0_spec
        (cs.map fun cc => chainBatchCall o 0 cc c) c st hInv hndc hfc
      rw [List.foldl_cons]
      have hfresh1 : ∀ t ∈ chunks.flatten, Fresh (processGroup0 o cs st c) t := by
        intro t ht
        have htc : t ∉ c := fun hc => hdisj hc ht
        obtain ⟨e1, e2⟩ := g3 t htc
        obtain ⟨f1, f2⟩ := hfresh t (List.mem_append_right _ ht)
        rw [hpg]
        exact ⟨e1.trans f1, fun hin => f2 (e2.mp hin)⟩
      have hInv1 : Inv (processGroup0 o cs st c) := by rw [hpg]; exact g1
      obtain ⟨i1, i2, i3⟩ := ih (processGroup0 o cs st c) hInv1 hndrest hfresh1
      refine ⟨i1, ?_, ?_⟩
      · intro t ht
        rcases List.mem_append.mp ht with htc | htrest
        · have htflat : t ∉ chunks.flatten := fun h => hdisj htc h
          obtain ⟨e1, e2⟩ := i3 t htflat
          obtain ⟨s1, s2⟩ := g2 t htc
          rw [← hpg] at s1 s2
          cases hf : findFirst t (cs.map fun cc => chainBatchCall o 0 cc c) with
          | some rec =>
              left
              refine ⟨?_, ?_⟩
              · rw [e1, s1, hf]; rfl
              · intro hin
                have := e2.mp hin
                rw [s2, hf] at this
                exact Option.noConfusion this
          | none =>
              right
              refine ⟨?_, ?_⟩
              · rw [e1, s1, hf]
              · exact e2.mpr (s2.mpr hf)
        · exact i2 t htrest
      · intro t ht
        have htc : t ∉ c := fun h => ht (List.mem_append_left _ h)
        have htflat : t ∉ chunks.flatten := fun h => ht (List.mem_append_right _ h)
        obtain ⟨e1, e2⟩ := i3 t htflat
        obtain ⟨s1, s2⟩ := g3 t htc
        rw [← hpg] at s1 s2
        exact ⟨e1.trans s1, e2.trans s2⟩

/-- A whole recheck pass over disjoint groups drawn from the recheck set:
each swept token is resolved or still queued, everything else untouched. -/
theorem foldl_groupR_spec (o : Oracle) (cs : List ChainCfg) (pass : Nat) :
    ∀ (chunks : List (List Nat)) (st : SnapState), Inv st →
      chunks.flatten.Nodup →
      (∀ t ∈ chunks.flatten, t ∈ st.tokensToRecheck) →
      Inv (chunks.foldl (processGroupR o cs pass) st)
      ∧ (∀ t ∈ chunks.flatten,
          ((snapLookup t (chunks.foldl (processGroupR o cs pass) st).finalSnapshot).isSome
            ∧ t ∉ (chunks.foldl (processGroupR o cs pass) st).tokensToRecheck)
          ∨ (snapLookup t (chunks.foldl (processGroupR o cs pass) st).finalSnapshot = none
            ∧ t ∈ (chunks.foldl (processGroupR o cs pass) st).tokensToRecheck))
      ∧ (∀ t, t ∉ chunks.flatten →
          snapLookup t (chunks.foldl (processGroupR o cs pass) st).finalSnapshot
            = snapLookup t st.finalSnapshot
          ∧ ((t ∈ (chunks.foldl (processGroupR o cs pass) st).tokensToRecheck) ↔
              t ∈ st.tokensToRecheck)) := by
  intro chunks
  induction chunks with
  | nil =>
      intro st hInv _ _
      exact ⟨hInv, by simp, fun t _ => ⟨rfl, Iff.rfl⟩⟩
  | cons c chunks ih =>
      intro st hInv hnd hsub
      rw [List.flatten_cons] at hnd hsub
      obtain ⟨hndc, hndrest, hdisj⟩ := List.nodup_append.mp hnd
      have hsc : ∀ t ∈ c, t ∈ st.tokensToRecheck :=
        fun t ht => hsub t (List.mem_append_left _ ht)
      have hpg : processGroupR o cs pass st c
          = c.foldl (stepR (cs.map fun cc => chainBatchCall o pass cc c)) st := rfl
      obtain ⟨g1, g2, g3⟩ := foldl_stepR_spec
        (cs.map fun cc => chainBatchCall o pass cc c) c st hInv hndc hsc
      rw [List.foldl_cons]
      have hsub1 : ∀ t ∈ chunks.flatten,
          t ∈ (processGroupR o cs pass st c).tokensToRecheck := by
        intro t ht
        have htc : t ∉ c := fun hc => hdisj hc ht
        obtain ⟨_, e2⟩ := g3 t htc
        rw [hpg]
        exact e2.mpr (hsub t (List.mem_append_right _ ht))
      have hInv1 : Inv (processGroupR o cs pass st c) := by rw [hpg]; exact g1
      obtain ⟨i1, i2, i3⟩ := ih (processGroupR o cs pass st c) hInv1 hndrest hsub1
      refine ⟨i1, ?_, ?_⟩
      · intro t ht
        rcases List.mem_append.mp ht with htc | htrest
        · have htflat : t ∉ chunks.flatten := fun h => hdisj htc h
          obtain ⟨e1, e2⟩ := i3 t htflat
          obtain ⟨s1, s2⟩ := g2 t htc
          rw [← hpg] at s1 s2
          cases hf : findFirst t (cs.map fun cc => chainBatchCall o pass cc c) with
          | some rec =>
              obtain ⟨w1, w2⟩ := s1 rec hf
              left
              refine ⟨by rw [e1, w1]; rfl, fun hin => w2 (e2.mp hin)⟩
          | none =>
              obtain ⟨w1, w2⟩ := s2 hf
              right
              exact ⟨by rw [e1, w1], e2.mpr w2⟩
        · exact i2 t htrest
      · intro t ht
        have htc : t ∉ c := fun h => ht (List.mem_append_left _ h)
        have htflat : t ∉ chunks.flatten := fun h => ht (List.mem_append_right _ h)
        obtain ⟨e1, e2⟩ := i3 t htflat
        obtain ⟨s1, s2⟩ := g3 t htc
        rw [← hpg] at s1 s2
        exact ⟨e1.trans s1, e2.trans s2⟩

theorem foldl_groupR_sublist (o : Oracle) (cs : List ChainCfg) (pass : Nat) :
    ∀ (chunks : List (List Nat)) (st : SnapState),
      (chunks.foldl (processGroupR o cs pass) st).tokensToRecheck.Sublist
        st.tokensToRecheck := by
  intro chunks
  induction chunks with
  | nil => intro st; exact List.Sublist.refl _
  | cons c chunks ih =>
      intro st
      rw [List.foldl_cons]
      exact (ih (processGroupR o cs pass st c)).trans
        (foldl_stepR_sublist _ c st)

/-- A recheck pass never grows the recheck set. -/
theorem runRecheckPass_sublist (o : Oracle) (cs : List ChainCfg)
    (B pass : Nat) (st : SnapState) :
    (runRecheckPass o cs B pass st).tokensToRecheck.Sublist
      st.tokensToRecheck := by
  rw [runRecheckPass]
  by_cases h : st.tokensToRecheck.isEmpty
  · rw [if_pos h]
  · rw [if_neg h]
    exact foldl_groupR_sublist o cs pass _ st

theorem recheckBatchSize_ne_zero (B pass : Nat) : recheckBatchSize B pass ≠ 0 := by
  have : 5 ≤ recheckBatchSize B pass := Nat.le_max_left _ _
  omega

/-- Invariant, per-token dichotomy over the old recheck set, and framing of
untouched tokens, through one whole recheck pass. -/
theorem runRecheckPass_spec (o : Oracle) (cs : List ChainCfg) (B pass : Nat)
    (st : SnapState) (hInv : Inv st) :
    Inv (runRecheckPass o cs B pass st)
    ∧ (∀ t ∈ st.tokensToRecheck,
        ((snapLookup t (runRecheckPass o cs B pass st).finalSnapshot).isSome
          ∧ t ∉ (runRecheckPass o cs B pass st).tokensToRecheck)
        ∨ (snapLookup t (runRecheckPass o cs B pass st).finalSnapshot = none
          ∧ t ∈ (runRecheckPass o cs B pass st).tokensToRecheck))
    ∧ (∀ t, t ∉ st.tokensToRecheck →
        snapLookup t (runRecheckPass o cs B pass st).finalSnapshot
          = snapLookup t st.finalSnapshot
        ∧ t ∉ (runRecheckPass o cs B pass st).tokensToRecheck) := by
  rw [runRecheckPass]
  by_cases hemp : st.tokensToRecheck.isEmpty
  · rw [if_pos hemp]
    rw [List.isEmpty_iff] at hemp
    refine ⟨hInv, ?_, ?_⟩
    · intro t ht
      rw [hemp] at ht
      simp at ht
    · intro t ht
      exact ⟨rfl, ht⟩
  · rw [if_neg hemp]
    have hflat : (chunkList (recheckBatchSize B pass) st.tokensToRecheck).flatten
        = st.tokensToRecheck :=
      chunkList_join _ (recheckBatchSize_ne_zero B pass) _
    have hnd : (chunkList (recheckBatchSize B pass) st.tokensToRecheck).flatten.Nodup := by
      rw [hflat]; exact hInv.2.2
    have hsub : ∀ t ∈ (chunkList (recheckBatchSize B pass) st.tokensToRecheck).flatten,
        t ∈ st.tokensToRecheck := by
      intro t ht; rw [hflat] at ht; exact ht
    obtain ⟨i1, i2, i3⟩ := foldl_groupR_spec o cs pass _ st hInv hnd hsub
    refine ⟨i1, ?_, ?_⟩
    · intro t ht
      exact i2 t (by rw [hflat]; exact ht)
    · intro t ht
      obtain ⟨e1, e2⟩ := i3 t (by rw [hflat]; exact ht)
      exact ⟨e1, fun hin => ht (e2.mp hin)⟩

/-- The state of a full or partial run: the invariant plus, for every token
of the supply range, the resolved/queued dichotomy. -/
def GoodState (totalSupply : Nat) (st : SnapState) : Prop :=
  Inv st ∧ ∀ t ∈ List.range' 1 totalSupply,
    ((snapLookup t st.finalSnapshot).isSome ∧ t ∉ st.tokensToRecheck)
    ∨ (snapLookup t st.finalSnapshot = none ∧ t ∈ st.tokensToRecheck)

theorem goodState_runPass0 (o : Oracle) (cs : List ChainCfg)
    (totalSupply B : Nat) (hB : 1 ≤ B) :
    GoodState totalSupply (runPass0 o cs totalSupply B) := by
  have hflat : (chunkList B (List.range' 1 totalSupply)).flatten
      = List.range' 1 totalSupply := chunkList_join B (by omega) _
  have hnd : (chunkList B (List.range' 1 totalSupply)).flatten.Nodup := by
    rw [hflat]; exact List.nodup_range' 1 totalSupply
  have hfresh : ∀ t ∈ (chunkList B (List.range' 1 totalSupply)).flatten,
      Fresh initState t := by
    intro t _
    exact ⟨rfl, by simp [initState]⟩
  obtain ⟨i1, i2, _⟩ :=
    foldl_group0_spec o cs (chunkList B (List.range' 1 totalSupply))
      initState inv_init hnd hfresh
  exact ⟨i1, fun t ht => i2 t (by rw [hflat]; exact ht)⟩

theorem inv_runPass0 (o : Oracle) (cs : List ChainCfg) (totalSupply B : Nat) :
    Inv (runPass0 o cs totalSupply B) := by
  by_cases hB : B = 0
  · subst hB
    rw [runPass0, chunkList, if_pos rfl]
    exact inv_init
  · exact (goodState_runPass0 o cs totalSupply B (by omega)).1

theorem inv_runPrefix (o : Oracle) (cs : List ChainCfg) (totalSupply B : Nat) :
    ∀ k, Inv (runPrefix o cs totalSupply B k) := by
  intro k
  induction k with
  | zero => exact inv_runPass0 o cs totalSupply B
  | succ k ih =>
      exact (runRecheckPass_spec o cs B (k + 1) _ ih).1

theorem goodState_runPrefix (o : Oracle) (cs : List ChainCfg)
    (totalSupply B : Nat) (hB : 1 ≤ B) :
    ∀ k, GoodState totalSupply (runPrefix o cs totalSupply B k) := by
  intro k
  induction k with
  | zero => exact goodState_runPass0 o cs totalSupply B hB
  | succ k ih =>
      obtain ⟨hInv, hdich⟩ := ih
      obtain ⟨p1, p2, p3⟩ := runRecheckPass_spec o cs B (k + 1) _ hInv
      refine ⟨p1, ?_⟩
      intro t ht
      rcases hdich t ht with ⟨hsome, hnot⟩ | ⟨hnone, hin⟩
      · obtain ⟨e1, e2⟩ := p3 t hnot
        left
        exact ⟨by rw [runPrefix, e1]; exact hsome, by rw [runPrefix]; exact e2⟩
      · have := p2 t hin
        rw [runPrefix]
        exact this

/-- A record already in the snapshot survives one whole recheck pass
unchanged. -/
theorem runRecheckPass_preserves (o : Oracle) (cs : List ChainCfg)
    (B pass : Nat) (st : SnapState) (hInv : Inv st) (t : Nat) (rec : Record)
    (h : snapLookup t st.finalSnapshot = some rec) :
    snapLookup t (runRecheckPass o cs B pass st).finalSnapshot = some rec := by
  have hnot : t ∉ st.tokensToRecheck := hInv.1 t (by rw [h]; rfl)
  obtain ⟨_, _, p3⟩ := runRecheckPass_spec o cs B pass st hInv
  exact ((p3 t hnot).1).trans h

/-- One recheck step never disturbs an existing snapshot entry. -/
theorem stepR_preserves (l : List (Option ChainResult)) (st : SnapState)
    (u : Nat) (hInv : Inv st) (t : Nat) (rec : Record)
    (h : snapLookup t st.finalSnapshot = some rec) :
    snapLookup t (stepR l st u).finalSnapshot = some rec := by
  rw [stepR]
  by_cases hu : u ∈ st.tokensToRecheck
  · rw [if_pos hu]
    have hlooku : snapLookup u st.finalSnapshot = none := by
      cases hcase : snapLookup u st.finalSnapshot with
      | none => rfl
      | some v => exact absurd hu (hInv.1 u (by rw [hcase]; rfl))
    cases hf : findFirst u l with
    | some rec2 =>
        have hut : t ≠ u := by
          intro he
          rw [he, hlooku] at h
          exact Option.noConfusion h
        show snapLookup t (objSet st.finalSnapshot u rec2) = some rec
        rw [objSet_fresh st.finalSnapshot u rec2 hlooku,
          snapLookup_append_single, h]
    | none => exact h
  · rw [if_neg hu]
    exact h

theorem stepR_inv (l : List (Option ChainResult)) (st : SnapState) (u : Nat)
    (hInv : Inv st) : Inv (stepR l st u) := by
  rw [stepR]
  by_cases hu : u ∈ st.tokensToRecheck
  · rw [if_pos hu]
    have hlooku : snapLookup u st.finalSnapshot = none := by
      cases hcase : snapLookup u st.finalSnapshot with
      | none => rfl
      | some v => exact absurd hu (hInv.1 u (by rw [hcase]; rfl))
    cases hf : findFirst u l with
    | some rec2 =>
        obtain ⟨hd, hv, hnds⟩ := hInv
        show Inv ⟨objSet st.finalSnapshot u rec2, st.tokensToRecheck.erase u⟩
        rw [objSet_fresh st.finalSnapshot u rec2 hlooku]
        refine ⟨?_, ?_, hnds.erase u⟩
        · intro v hvv hin
          by_cases hvu : v = u
          · subst hvu
            exact hnds.not_mem_erase hin
          · have : snapLookup v (st.finalSnapshot ++ [(u, rec2)])
                = snapLookup v st.finalSnapshot := by
              rw [snapLookup_append_single]
              cases snapLookup v st.finalSnapshot with
              | none => simp [Ne.symm hvu]
              | some w => simp
            rw [this] at hvv
            exact hd v hvv (List.mem_of_mem_erase hin)
        · intro v rec3 hvv
          by_cases hvu : v = u
          · subst hvu
            rw [snapLookup_append_single, hlooku] at hvv
            simp at hvv
            rw [← hvv]
            exact findFirst_valid hf
          · have : snapLookup v (st.finalSnapshot ++ [(u, rec2)])
                = snapLookup v st.finalSnapshot := by
              rw [snapLookup_append_single]
              cases snapLookup v st.finalSnapshot with
              | none => simp [Ne.symm hvu]
              | some w => simp
            rw [this] at hvv
            exact hv v rec3 hvv
    | none => exact hInv
  · rw [if_neg hu]
    exact hInv

/-- Existing snapshot entries survive a whole recheck group. -/
theorem foldl_stepR_preserves (l : List (Option ChainResult)) :
    ∀ (batch : List Nat) (st : SnapState), Inv st → ∀ (t : Nat) (rec : Record),
      snapLookup t st.finalSnapshot = some rec →
      snapLookup t (batch.foldl (stepR l) st).finalSnapshot = some rec := by
  intro batch
  induction batch with
  | nil => intro st _ t rec h; exact h
  | cons u rest ih =>
      intro st hInv t rec h
      rw [List.foldl_cons]
      exact ih (stepR l st u) (stepR_inv l st u hInv) t rec
        (stepR_preserves l st u hInv t rec h)

/-- `processEarningsCSV` (src/solana_panda_snapshotter.js lines 295-416),
modelled on the `SolanaTokenId` column of the input rows: throws (`none`)
on an empty CSV; filters out blank mint ids; initialises `OwnerWallet` to
null and then, batch by batch, overwrites it with the `getNFTOwner` result
(the grouping into `BATCH_SIZE` slices only schedules the calls and does not
change any row, so rows are processed pointwise here); finally writes ALL
of `validData` as the output CSV and reports
`(rows, foundOwners, missingOwners)`. -/
def processEarningsCSV (att : String → Nat → AttemptOutcome)
    (mintColumn : List String) : Option (List SolOutRow × Nat × Nat) :=
  if mintColumn.isEmpty then none
  else
    let validData := mintColumn.filter fun s => !(isBlank s)
    let outRows := validData.map fun s =>
      SolOutRow.mk s (getNFTOwner (att s) s).1
    let foundOwners := (outRows.filter fun r => ownerTruthy r.ownerWallet).length
    some (outRows, foundOwners, outRows.length - foundOwners)

/-! ### Lemmas about the Solana fetcher and the report builders -/

theorem attemptTrace_counts (out : AttemptOutcome) :
    (attemptTrace out).count GateEvent.acquire = 1
    ∧ (attemptTrace out).count GateEvent.release = 1 := by
  cases out <;> exact ⟨rfl, rfl⟩

theorem runGate_append (n : Int) (l1 l2 : List GateEvent) :
    runGate n (l1 ++ l2) = runGate (runGate n l1) l2 := by
  simp [runGate, List.foldl_append]

theorem runGate_attemptTrace (out : AttemptOutcome) (n : Int) :
    runGate n (attemptTrace out) = n := by
  cases out <;> simp [runGate, attemptTrace]

theorem runAttempts_gate (att : Nat → AttemptOutcome) :
    ∀ (fuel k : Nat) (n : Int), runGate n (runAttempts att fuel k).2 = n := by
  intro fuel
  induction fuel with
  | zero => intro k n; rfl
  | succ fuel ih =>
      intro k n
      rw [runAttempts]
      by_cases h : (att k).isSuccess
      · rw [if_pos h]
        exact runGate_attemptTrace _ n
      · rw [if_neg h]
        rw [runGate_append, runGate_attemptTrace]
        exact ih (k + 1) n

theorem runAttempts_counts (att : Nat → AttemptOutcome) :
    ∀ fuel k, (runAttempts att fuel k).2.count GateEvent.acquire
      = (runAttempts att fuel k).2.count GateEvent.release := by
  intro fuel
  induction fuel with
  | zero => intro k; rfl
  | succ fuel ih =>
      intro k
      rw [runAttempts]
      by_cases h : (att k).isSuccess
      · rw [if_pos h]
        rw [(attemptTrace_counts (att k)).1, (attemptTrace_counts (att k)).2]
      · rw [if_neg h]
        simp only [List.count_append]
        rw [(attemptTrace_counts (att k)).1, (attemptTrace_counts (att k)).2,
          ih (k + 1)]

theorem runAttempts_none (att : Nat → AttemptOutcome) :
    ∀ fuel k, (∀ i, i < fuel → (att (k + i)).isSuccess = false) →
      (runAttempts att fuel k).1 = none := by
  intro fuel
  induction fuel with
  | zero => intro k _; rfl
  | succ fuel ih =>
      intro k hfail
      rw [runAttempts]
      have h0 : (att k).isSuccess = false := by
        have := hfail 0 (Nat.succ_pos fuel)
        simpa using this
      rw [if_neg (by rw [h0]; exact Bool.false_ne_true)]
      exact ih (k + 1) (by
        intro i hi
        have heq : k + 1 + i = k + (i + 1) := by omega
        rw [heq]
        exact hfail (i + 1) (by omega))

theorem runAttempts_some (att : Nat → AttemptOutcome) :
    ∀ fuel k a, (runAttempts att fuel k).1 = some a →
      ∃ i, i < fuel ∧ att (k + i) = .success a := by
  intro fuel
  induction fuel with
  | zero =>
      intro k a h
      exact absurd h (by rw [runAttempts]; exact Option.noConfusion)
  | succ fuel ih =>
      intro k a h
      rw [runAttempts] at h
      by_cases hs : (att k).isSuccess
      · rw [if_pos hs] at h
        cases hatt : att k with
        | success b =>
            rw [hatt] at h
            simp only [successOwner] at h
            cases h
            exact ⟨0, Nat.succ_pos fuel, by rw [Nat.add_zero, hatt]⟩
        | _ =>
            rw [hatt] at hs
            simp [AttemptOutcome.isSuccess] at hs
      · rw [if_neg hs] at h
        obtain ⟨i, hi, hatt⟩ := ih (k + 1) a h
        refine ⟨i + 1, by omega, ?_⟩
        have heq : k + (i + 1) = k + 1 + i := by omega
        rw [heq]
        exact hatt

theorem mem_insertRow (r x : CsvRow) (l : List CsvRow) :
    x ∈ insertRow r l ↔ x = r ∨ x ∈ l := by
  induction l with
  | nil => simp [insertRow]
  | cons y ys ih =>
      rw [insertRow]
      by_cases h : r.tokenId ≤ y.tokenId
      · rw [if_pos h]
        simp
      · rw [if_neg h]
        simp only [List.mem_cons, ih]
        tauto

theorem mem_sortRows (x : CsvRow) (l : List CsvRow) :
    x ∈ sortRows l ↔ x ∈ l := by
  induction l with
  | nil => simp [sortRows]
  | cons y ys ih =>
      rw [sortRows, mem_insertRow]
      simp [ih]

/-- Every written EVM CSV row corresponds to a resolved snapshot entry. -/
theorem evmCsvRows_tokenId {m : List (Nat × Record)} {row : CsvRow}
    (h : row ∈ evmCsvRows m) : (snapLookup row.tokenId m).isSome := by
  rw [evmCsvRows, mem_sortRows] at h
  obtain ⟨p, hp, hrow⟩ := List.mem_map.mp h
  cases hrow
  exact snapLookup_isSome_of_mem (by rw [Prod.mk.eta]; exact hp)

theorem length_filter_not {α : Type} (p : α → Bool) (l : List α) :
    (l.filter fun x => !(p x)).length = l.length - (l.filter p).length := by
  induction l with
  | nil => rfl
  | cons x xs ih =>
      have hle := List.length_filter_le p xs
      by_cases h : p x <;> simp [List.filter_cons, h, ih] <;> omega

theorem sumCounts_bump (l : List (Address × Nat)) (a : Address) :
    sumCounts (bumpWallet l a) = sumCounts l + 1 := by
  induction l with
  | nil => rfl
  | cons p rest ih =>
      obtain ⟨b, n⟩ := p
      rw [bumpWallet]
      by_cases h : b = a
      · rw [if_pos h]
        simp [sumCounts]
        omega
      · rw [if_neg h]
        simp only [sumCounts, List.map_cons, List.sum_cons] at ih ⊢
        omega

theorem length_bump (l : List (Address × Nat)) (a : Address) :
    (bumpWallet l a).length ≤ l.length + 1 := by
  induction l with
  | nil => simp [bumpWallet]
  | cons p rest ih =>
      obtain ⟨b, n⟩ := p
      rw [bumpWallet]
      by_cases h : b = a
      · rw [if_pos h]
        simp
      · rw [if_neg h]
        simp only [List.length_cons]
        omega

theorem generateWalletSummary_fold :
    ∀ (m : List (Nat × Record)) (acc : List (Address × Nat)),
      sumCounts (m.foldl (fun acc2 p => bumpWallet acc2 p.2.owner) acc)
        = sumCounts acc + m.length
      ∧ (m.foldl (fun acc2 p => bumpWallet acc2 p.2.owner) acc).length
          ≤ acc.length + m.length := by
  intro m
  induction m with
  | nil => intro acc; simp
  | cons p rest ih =>
      intro acc
      rw [List.foldl_cons]
      obtain ⟨h1, h2⟩ := ih (bumpWallet acc p.2.owner)
      constructor
      · rw [h1, sumCounts_bump]
        simp only [List.length_cons]
        omega
      · have h3 := length_bump acc p.2.owner
        simp only [List.length_cons]
        omega

/-! ### Concrete fixtures used by the witnesses -/

/-- A network oracle that always reports the same valid owner. -/
def demoOracle : Oracle := ⟨fun _ _ _ => some "0xAAA", fun _ _ _ => true⟩

def ethCfg : ChainCfg := ⟨"ethereum", some 7⟩

def polyCfg : ChainCfg := ⟨"polygon", some 9⟩

def demoChains : List ChainCfg := [ethCfg, polyCfg]

/-! ### The claims -/

/-- C1: after a complete run, every token id in `[1, totalSupply]` is in
exactly one of two states - recorded in the final map with a truthy,
non-zero-address owner and absent from the missing set, or absent from the
map and a member of the missing set - and the zero address is never
recorded as an owner for any id. -/
theorem snapshotNFTs_partition (o : Oracle) (cs : List ChainCfg)
    (totalSupply B : Nat) (hB : 1 ≤ B) (t : Nat)
    (ht : t ∈ List.range' 1 totalSupply) :
    ((∃ rec, snapLookup t (snapshotNFTs o cs totalSupply B).finalSnapshot = some rec
        ∧ rec.owner ≠ "" ∧ rec.owner ≠ zeroAddress
        ∧ t ∉ (snapshotNFTs o cs totalSupply B).tokensToRecheck)
      ∨ (snapLookup t (snapshotNFTs o cs totalSupply B).finalSnapshot = none
        ∧ t ∈ (snapshotNFTs o cs totalSupply B).tokensToRecheck))
    ∧ ¬((snapLookup t (snapshotNFTs o cs totalSupply B).finalSnapshot).isSome
        ∧ t ∈ (snapshotNFTs o cs totalSupply B).tokensToRecheck)
    ∧ (∀ u rec,
        snapLookup u (snapshotNFTs o cs totalSupply B).finalSnapshot = some rec →
        rec.owner ≠ zeroAddress) := by
  obtain ⟨hInv, hdich⟩ := goodState_runPrefix o cs totalSupply B hB 3
  refine ⟨?_, ?_, ?_⟩
  · rcases hdich t ht with ⟨hsome, hnot⟩ | ⟨hnone, hin⟩
    · left
      obtain ⟨rec, hrec⟩ := Option.isSome_iff_exists.mp hsome
      have hval := hInv.2.1 t rec hrec
      have hval2 : rec.owner ≠ "" ∧ rec.owner ≠ zeroAddress := by
        simpa [validOwnerB] using hval
      exact ⟨rec, hrec, hval2.1, hval2.2, hnot⟩
    · right
      exact ⟨hnone, hin⟩
  · rintro ⟨hsome, hin⟩
    exact hInv.1 t hsome hin
  · intro u rec hrec
    have hval := hInv.2.1 u rec hrec
    have hval2 : rec.owner ≠ "" ∧ rec.owner ≠ zeroAddress := by
      simpa [validOwnerB] using hval
    exact hval2.2

/-- Witness for C1 at a concrete run (supply 3, batch size 25, token 2). -/
theorem snapshotNFTs_partition_witness :
    (1 : Nat) ≤ 25 ∧ 2 ∈ List.range' 1 3
    ∧ (((∃ rec, snapLookup 2 (snapshotNFTs demoOracle demoChains 3 25).finalSnapshot = some rec
          ∧ rec.owner ≠ "" ∧ rec.owner ≠ zeroAddress
          ∧ 2 ∉ (snapshotNFTs demoOracle demoChains 3 25).tokensToRecheck)
        ∨ (snapLookup 2 (snapshotNFTs demoOracle demoChains 3 25).finalSnapshot = none
          ∧ 2 ∈ (snapshotNFTs demoOracle demoChains 3 25).tokensToRecheck))
      ∧ ¬((snapLookup 2 (snapshotNFTs demoOracle demoChains 3 25).finalSnapshot).isSome
          ∧ 2 ∈ (snapshotNFTs demoOracle demoChains 3 25).tokensToRecheck)
      ∧ (∀ u rec,
          snapLookup u (snapshotNFTs demoOracle demoChains 3 25).finalSnapshot = some rec →
          rec.owner ≠ zeroAddress)) :=
  ⟨by decide, by decide,
    snapshotNFTs_partition demoOracle demoChains 3 25 (by decide) 2 (by decide)⟩

/-- C2: recheck pass `p` partitions the unresolved ids with batch size
`max 5 (floor (B / p))` - the groups reassemble to the unresolved list, none
is empty or bigger than that size and all but the last have exactly that
size - while the initial sweep partitions the id range with the configured
size `B` itself. -/
theorem recheck_batch_size_law (B p totalSupply : Nat) (hp1 : 1 ≤ p)
    (hp3 : p ≤ 3) (hB : 1 ≤ B) (unresolved : List Nat) :
    recheckBatchSize B p = max 5 (B / p)
    ∧ (chunkList (recheckBatchSize B p) unresolved).flatten = unresolved
    ∧ (∀ g ∈ chunkList (recheckBatchSize B p) unresolved,
        g ≠ [] ∧ g.length ≤ max 5 (B / p))
    ∧ (∀ g ∈ (chunkList (recheckBatchSize B p) unresolved).dropLast,
        g.length = max 5 (B / p))
    ∧ (chunkList B (List.range' 1 totalSupply)).flatten = List.range' 1 totalSupply
    ∧ (∀ g ∈ (chunkList B (List.range' 1 totalSupply)).dropLast,
        g.length = B) := by
  have hs := recheckBatchSize_ne_zero B p
  exact ⟨rfl, chunkList_join _ hs _, chunkList_sizes _ hs _,
    chunkList_dropLast _ hs _, chunkList_join B (by omega) _,
    chunkList_dropLast B (by omega) _⟩

/-- Witness for C2 at `B = 25`, `p = 2` (batch size 12), three unresolved
ids and supply 3. -/
theorem recheck_batch_size_law_witness :
    (1 : Nat) ≤ 2 ∧ (2 : Nat) ≤ 3 ∧ (1 : Nat) ≤ 25
    ∧ (recheckBatchSize 25 2 = max 5 (25 / 2)
      ∧ (chunkList (recheckBatchSize 25 2) [4, 9, 11]).flatten = [4, 9, 11]
      ∧ (∀ g ∈ chunkList (recheckBatchSize 25 2) [4, 9, 11],
          g ≠ [] ∧ g.length ≤ max 5 (25 / 2))
      ∧ (∀ g ∈ (chunkList (recheckBatchSize 25 2) [4, 9, 11]).dropLast,
          g.length = max 5 (25 / 2))
      ∧ (chunkList 25 (List.range' 1 3)).flatten = List.range' 1 3
      ∧ (∀ g ∈ (chunkList 25 (List.range' 1 3)).dropLast, g.length = 25)) :=
  ⟨by decide, by decide, by decide,
    recheck_batch_size_law 25 2 3 (by decide) (by decide) (by decide) [4, 9, 11]⟩

/-- C3: across the recheck passes the unresolved set only shrinks - the set
after pass `p+1` is a sublist of the set after pass `p`, its size is
non-increasing, an id once removed never reappears, and an id removed by a
pass was written into the final map by that pass. -/
theorem recheck_monotone (o : Oracle) (cs : List ChainCfg)
    (totalSupply B p : Nat) (hp : p ≤ 2) :
    ((runPrefix o cs totalSupply B (p + 1)).tokensToRecheck).Sublist
      ((runPrefix o cs totalSupply B p).tokensToRecheck)
    ∧ ((runPrefix o cs totalSupply B (p + 1)).tokensToRecheck).length
        ≤ ((runPrefix o cs totalSupply B p).tokensToRecheck).length
    ∧ (∀ t, t ∉ (runPrefix o cs totalSupply B p).tokensToRecheck →
        t ∉ (runPrefix o cs totalSupply B (p + 1)).tokensToRecheck)
    ∧ (∀ t, t ∈ (runPrefix o cs totalSupply B p).tokensToRecheck →
        t ∉ (runPrefix o cs totalSupply B (p + 1)).tokensToRecheck →
        (snapLookup t (runPrefix o cs totalSupply B (p + 1)).finalSnapshot).isSome) := by
  have hsub : ((runPrefix o cs totalSupply B (p + 1)).tokensToRecheck).Sublist
      ((runPrefix o cs totalSupply B p).tokensToRecheck) :=
    runRecheckPass_sublist o cs B (p + 1) (runPrefix o cs totalSupply B p)
  refine ⟨hsub, hsub.length_le, fun t ht hin => ht (hsub.subset hin), ?_⟩
  intro t htin htout
  have hInv := inv_runPrefix o cs totalSupply B p
  obtain ⟨_, p2, _⟩ := runRecheckPass_spec o cs B (p + 1) _ hInv
  rcases p2 t htin with ⟨hsome, _⟩ | ⟨_, hin2⟩
  · exact hsome
  · exact absurd hin2 htout

/-- Witness for C3 at a concrete run (pass 1, supply 3). -/
theorem recheck_monotone_witness :
    (1 : Nat) ≤ 2
    ∧ (((runPrefix demoOracle demoChains 3 25 2).tokensToRecheck).Sublist
        ((runPrefix demoOracle demoChains 3 25 1).tokensToRecheck)
      ∧ ((runPrefix demoOracle demoChains 3 25 2).tokensToRecheck).length
          ≤ ((runPrefix demoOracle demoChains 3 25 1).tokensToRecheck).length
      ∧ (∀ t, t ∉ (runPrefix demoOracle demoChains 3 25 1).tokensToRecheck →
          t ∉ (runPrefix demoOracle demoChains 3 25 2).tokensToRecheck)
      ∧ (∀ t, t ∈ (runPrefix demoOracle demoChains 3 25 1).tokensToRecheck →
          t ∉ (runPrefix demoOracle demoChains 3 25 2).tokensToRecheck →
          (snapLookup t (runPrefix demoOracle demoChains 3 25 2).finalSnapshot).isSome)) :=
  ⟨by decide, recheck_monotone demoOracle demoChains 3 25 1 (by decide)⟩

/-- C4: first writer wins - a record present in the final map after pass `i`
is still present, with the same owner, chain and block, after every later
pass `j`; moreover no single recheck group ever overwrites an existing
record. -/
theorem first_writer_wins (o : Oracle) (cs : List ChainCfg)
    (totalSupply B : Nat) (i j : Nat) (hij : i ≤ j) (hj : j ≤ 3)
    (t : Nat) (rec : Record)
    (h : snapLookup t (runPrefix o cs totalSupply B i).finalSnapshot = some rec) :
    snapLookup t (runPrefix o cs totalSupply B j).finalSnapshot = some rec
    ∧ ∀ (st : SnapState) (l : List (Option ChainResult)) (batch : List Nat)
        (u : Nat) (rec2 : Record), Inv st →
        snapLookup u st.finalSnapshot = some rec2 →
        snapLookup u (batch.foldl (stepR l) st).finalSnapshot = some rec2 := by
  constructor
  · clear hj
    induction j, hij using Nat.le_induction with
    | base => exact h
    | succ m hm ih =>
        exact runRecheckPass_preserves o cs B (m + 1) _
          (inv_runPrefix o cs totalSupply B m) t rec ih
  · intro st l batch u rec2 hInv h2
    exact foldl_stepR_preserves l batch st hInv u rec2 h2

/-- Witness for C4: a record written in pass 0 of a concrete run survives
to the end of pass 3. -/
theorem first_writer_wins_witness :
    (0 : Nat) ≤ 3 ∧ (3 : Nat) ≤ 3
    ∧ snapLookup 1 (runPrefix demoOracle demoChains 1 25 0).finalSnapshot
        = some ⟨"0xAAA", "ethereum", 7⟩
    ∧ (snapLookup 1 (runPrefix demoOracle demoChains 1 25 3).finalSnapshot
        = some ⟨"0xAAA", "ethereum", 7⟩
      ∧ ∀ (st : SnapState) (l : List (Option ChainResult)) (batch : List Nat)
          (u : Nat) (rec2 : Record), Inv st →
          snapLookup u st.finalSnapshot = some rec2 →
          snapLookup u (batch.foldl (stepR l) st).finalSnapshot = some rec2) :=
  ⟨by decide, by decide, by decide,
    first_writer_wins demoOracle demoChains 1 25 0 3 (by decide) (by decide) 1
      ⟨"0xAAA", "ethereum", 7⟩ (by decide)⟩

/-- C5: in one group of the initial sweep, when the eligible chains that
report a truthy, non-zero owner for a token include one chain preceded only
by non-reporting chains and at least one further reporting chain after it,
the recorded entry is the first reporting chain's - storing its name, its
fetched owner and its snapshot block. -/
theorem cross_chain_tie_break (o : Oracle) (st : SnapState) (batch : List Nat)
    (t : Nat) (pre post : List ChainCfg) (c : ChainCfg) (rec : Record)
    (hInv : Inv st) (hnd : batch.Nodup) (hfresh : ∀ u ∈ batch, Fresh st u)
    (ht : t ∈ batch)
    (hpre : ∀ c2 ∈ pre, chainResolves o 0 c2 batch t = none)
    (hc : chainResolves o 0 c batch t = some rec)
    (hpost : ∃ c2 ∈ post, chainResolves o 0 c2 batch t ≠ none) :
    snapLookup t (processGroup0 o (pre ++ c :: post) st batch).finalSnapshot
      = some rec
    ∧ ∃ blk a, c.snapshotBlock = some blk ∧ o.fetch 0 c.name t = some a
        ∧ rec = ⟨a, c.name, blk⟩ := by
  obtain ⟨_, g2, _⟩ := foldl_step0_spec
    ((pre ++ c :: post).map fun cc => chainBatchCall o 0 cc batch)
    batch st hInv hnd hfresh
  have e1 := (g2 t ht).1
  have hff : findFirst t
      ((pre ++ c :: post).map fun cc => chainBatchCall o 0 cc batch)
      = some rec := by
    rw [findFirst_map]
    exact findSome?_eq_of_prefix_none pre hpre c post rec hc
  constructor
  · exact e1.trans hff
  · obtain ⟨blk, a, h1, h2, _, h4⟩ := chainResolves_inv ht hc
    exact ⟨blk, a, h1, h2, h4⟩

/-- Witness for C5: both demo chains report an owner for token 1; the
recorded entry is the first-configured chain's (ethereum at block 7). -/
theorem cross_chain_tie_break_witness :
    chainResolves demoOracle 0 ethCfg [1] 1 = some ⟨"0xAAA", "ethereum", 7⟩
    ∧ chainResolves demoOracle 0 polyCfg [1] 1 ≠ none
    ∧ (snapLookup 1 (processGroup0 demoOracle ([] ++ ethCfg :: [polyCfg])
          initState [1]).finalSnapshot = some ⟨"0xAAA", "ethereum", 7⟩
      ∧ ∃ blk a, ethCfg.snapshotBlock = some blk
          ∧ demoOracle.fetch 0 ethCfg.name 1 = some a
          ∧ (⟨"0xAAA", "ethereum", 7⟩ : Record) = ⟨a, ethCfg.name, blk⟩) :=
  ⟨by decide, by decide,
    cross_chain_tie_break demoOracle initState [1] 1 [] [polyCfg] ethCfg
      ⟨"0xAAA", "ethereum", 7⟩ inv_init (by decide)
      (fun u _ => ⟨rfl, by simp [initState]⟩) (by decide)
      (fun c2 hc2 => absurd hc2 (List.not_mem_nil c2))
      (by decide) ⟨polyCfg, by decide, by decide⟩⟩

/-- C6 counterexample: a call of `getNFTOwner` that succeeds on its first
attempt performs two network round trips but only ONE rate-gate
acquisition - `waitForSlot` runs once per attempt, not once per round trip
as claimed. -/
theorem solana_slot_per_attempt_counterexample :
    (getNFTOwner (fun _ => .success "0xW") "mint").2.count GateEvent.http = 2
    ∧ (getNFTOwner (fun _ => .success "0xW") "mint").2.count GateEvent.acquire = 1
    ∧ (getNFTOwner (fun _ => .success "0xW") "mint").2.count GateEvent.acquire ≠ 2 := by
  decide

/-- C6 amended: each attempt of `getNFTOwner` acquires exactly one rate-gate
slot (released exactly once), and that single slot guards both round trips
of the attempt - a call succeeding on its first attempt performs two round
trips under one acquisition. -/
theorem solana_one_slot_per_attempt (att : Nat → AttemptOutcome)
    (mint : String) (a : Address) :
    ((attemptTrace (att 0)).count GateEvent.acquire = 1
      ∧ (attemptTrace (att 0)).count GateEvent.release = 1)
    ∧ attemptTrace (.success a) = [.acquire, .http, .http, .release]
    ∧ (att 0 = .success a → isBlank mint = false →
        getNFTOwner att mint
          = (some a, [.acquire, .http, .http, .release])) := by
  refine ⟨attemptTrace_counts (att 0), rfl, ?_⟩
  intro h0 hblank
  rw [getNFTOwner, if_neg (by rw [hblank]; exact Bool.false_ne_true)]
  have h5 : (5 : Nat) = 4 + 1 := rfl
  rw [h5, runAttempts, h0]
  simp [AttemptOutcome.isSuccess, successOwner, attemptTrace]

/-- Witness for the amended C6 at a concrete successful call. -/
theorem solana_one_slot_per_attempt_witness :
    (fun _ : Nat => AttemptOutcome.success "0xW") 0 = AttemptOutcome.success "0xW"
    ∧ isBlank "m" = false
    ∧ getNFTOwner (fun _ => .success "0xW") "m"
        = (some "0xW", [.acquire, .http, .http, .release]) :=
  ⟨rfl, by decide,
    (solana_one_slot_per_attempt (fun _ => .success "0xW") "m" "0xW").2.2
      rfl (by decide)⟩

/-- C7 counterexample: the Solana CSV driver writes a row for an unresolved
mint - with a null `OwnerWallet` - instead of omitting it from the output. -/
theorem unresolved_row_counterexample :
    ∃ out, processEarningsCSV (fun _ _ => .firstThrowOther) ["mintA"] = some out
      ∧ SolOutRow.mk "mintA" none ∈ out.1 ∧ out.2.2 = 1 := by
  refine ⟨([⟨"mintA", none⟩], 0, 1), by decide, by simp, rfl⟩

/-- C7 amended: the EVM snapshotters write no row at all for unresolved ids
(rows exist only for final-map entries), while the Solana CSV driver writes
one output row per valid input row - null `OwnerWallet` when unresolved -
and surfaces unresolved mints through the missing count. -/
theorem unresolved_absent_from_output (o : Oracle) (cs : List ChainCfg)
    (totalSupply B : Nat) :
    (∀ t, t ∈ (snapshotNFTs o cs totalSupply B).tokensToRecheck →
      ∀ row ∈ evmCsvRows (snapshotNFTs o cs totalSupply B).finalSnapshot,
        row.tokenId ≠ t)
    ∧ (∀ att rows out, processEarningsCSV att rows = some out →
        out.1.length = (rows.filter fun s => !(isBlank s)).length
        ∧ out.2.2 = (out.1.filter fun r => !(ownerTruthy r.ownerWallet)).length) := by
  constructor
  · intro t htin row hrow heq
    have hInv := inv_runPrefix o cs totalSupply B 3
    have hsome := evmCsvRows_tokenId hrow
    rw [heq] at hsome
    exact hInv.1 t hsome htin
  · intro att rows out hout
    by_cases hemp : rows.isEmpty
    · rw [processEarningsCSV, if_pos hemp] at hout
      exact Option.noConfusion hout
    · rw [processEarningsCSV, if_neg hemp] at hout
      simp only [Option.some.injEq] at hout
      subst hout
      refine ⟨by simp, ?_⟩
      rw [length_filter_not]

/-- Witness for the amended C7 at a concrete unresolved Solana run. -/
theorem unresolved_absent_from_output_witness :
    (([SolOutRow.mk "mintA" none], 0, 1) :
        List SolOutRow × Nat × Nat).1.length
      = (["mintA"].filter fun s => !(isBlank s)).length
    ∧ (([SolOutRow.mk "mintA" none], 0, 1) :
        List SolOutRow × Nat × Nat).2.2
      = ((([SolOutRow.mk "mintA" none], 0, 1) :
          List SolOutRow × Nat × Nat).1.filter
            fun r => !(ownerTruthy r.ownerWallet)).length :=
  (unresolved_absent_from_output demoOracle demoChains 1 25).2
    (fun _ _ => .firstThrowOther) ["mintA"]
    ([SolOutRow.mk "mintA" none], 0, 1) (by decide)

/-- C8: `getNFTOwner` always returns a value - null for a blank identifier
or when every attempt fails (thrown transport errors are absorbed by the
retry loop, never propagated), and the owner of the first successful
attempt otherwise. -/
theorem fetcher_total (att : Nat → AttemptOutcome) (mint : String) :
    (isBlank mint = true → getNFTOwner att mint = (none, []))
    ∧ ((∀ k, k < 5 → (att k).isSuccess = false) →
        (getNFTOwner att mint).1 = none)
    ∧ (∀ a, (getNFTOwner att mint).1 = some a →
        ∃ k, k < 5 ∧ att k = .success a) := by
  refine ⟨?_, ?_, ?_⟩
  · intro h
    rw [getNFTOwner, if_pos h]
  · intro hfail
    rw [getNFTOwner]
    by_cases h : isBlank mint = true
    · rw [if_pos h]
    · rw [if_neg h]
      exact runAttempts_none att 5 0 (fun i hi => by simpa using hfail i hi)
  · intro a ha
    rw [getNFTOwner] at ha
    by_cases h : isBlank mint = true
    · rw [if_pos h] at ha
      exact absurd ha (by simp)
    · rw [if_neg h] at ha
      obtain ⟨i, hi, hatt⟩ := runAttempts_some att 5 0 a ha
      exact ⟨i, hi, by simpa using hatt⟩

/-- Witness for C8: all five attempts throw, the call returns null. -/
theorem fetcher_total_witness :
    (∀ k, k < 5 →
      ((fun _ : Nat => AttemptOutcome.firstThrowOther) k).isSuccess = false)
    ∧ (getNFTOwner (fun _ => .firstThrowOther) "m").1 = none :=
  ⟨by decide,
    (fetcher_total (fun _ => .firstThrowOther) "m").2.1 (by decide)⟩

/-- C9: the rate-gate counter returns to its entry value on every invocation
of `getNFTOwner` - acquisitions and releases balance over the whole call,
and every single attempt acquires exactly one slot and releases exactly one,
whatever its outcome. -/
theorem rate_gate_balanced (att : Nat → AttemptOutcome) (mint : String)
    (n : Int) :
    runGate n (getNFTOwner att mint).2 = n
    ∧ (getNFTOwner att mint).2.count GateEvent.acquire
        = (getNFTOwner att mint).2.count GateEvent.release
    ∧ ∀ out : AttemptOutcome,
        (attemptTrace out).count GateEvent.acquire = 1
        ∧ (attemptTrace out).count GateEvent.release = 1 := by
  refine ⟨?_, ?_, attemptTrace_counts⟩
  · rw [getNFTOwner]
    by_cases h : isBlank mint = true
    · rw [if_pos h]
      rfl
    · rw [if_neg h]
      exact runAttempts_gate att 5 0 n
  · rw [getNFTOwner]
    by_cases h : isBlank mint = true
    · rw [if_pos h]
      rfl
    · rw [if_neg h]
      exact runAttempts_counts att 5 0

/-- C10: the per-wallet counts of `generateWalletSummary` sum to the number
of entries of the final map - every resolved token is attributed to exactly
one wallet - so the unique-wallet count never exceeds the tokens-found
count. -/
theorem wallet_summary_partition (foundTokens : List (Nat × Record)) :
    sumCounts (generateWalletSummary foundTokens) = foundTokens.length
    ∧ (generateWalletSummary foundTokens).length ≤ foundTokens.length := by
  obtain ⟨h1, h2⟩ := generateWalletSummary_fold foundTokens []
  constructor
  · rw [generateWalletSummary, h1]
    simp [sumCounts]
  · rw [generateWalletSummary]
    simpa using h2

end PandaSnap
